import Mathlib

/-!
Verification of the document-chunking subsystem of the personal knowledge base
(`backend/app/utils/chunker.py`).  Text is modelled as `List Char`; each Python
method of `DocumentChunker` is embedded as an executable Lean function.  Loops
whose termination depends on the configuration are embedded with an explicit
fuel argument whose chosen value is proved (or commented) to be sufficient on
the configurations the theorems quantify over.
-/

set_option maxRecDepth 8000

namespace Chunker

/-- Whitespace characters of Python `str.strip()` and the regex class `\s`
(ASCII subset, which is what the chunker's inputs exercise). -/
def isSpaceChar (c : Char) : Bool :=
  c = ' ' || c = '\t' || c = '\n' || c = '\r' || c = '\x0b' || c = '\x0c'

/-- Sentence-final punctuation of the regex class `[。！？.!?]` used by
`_chunk_by_sentences`. -/
def isPunct (c : Char) : Bool :=
  c = '。' || c = '！' || c = '？' || c = '.' || c = '!' || c = '?'

/-- Python `text.strip()`. -/
def pyStrip (l : List Char) : List Char :=
  ((l.dropWhile isSpaceChar).reverse.dropWhile isSpaceChar).reverse

/-- Helper for `split_nl`: accumulates the current line (reversed). -/
def split_nl_go (cur : List Char) : List Char → List (List Char)
  | [] => [cur.reverse]
  | c :: rest =>
    if c = '\n' then cur.reverse :: split_nl_go [] rest
    else split_nl_go (c :: cur) rest

/-- Python `text.split('\n')`. -/
def split_nl (t : List Char) : List (List Char) := split_nl_go [] t

/-- Python `'\n'.join(lines)`. -/
def join_nl : List (List Char) → List Char
  | [] => []
  | [l] => l
  | l :: rest => l ++ '\n' :: join_nl rest

/-- Helper for `split_nn`: accumulates the current piece (reversed). -/
def split_nn_go (cur : List Char) : List Char → List (List Char)
  | [] => [cur.reverse]
  | '\n' :: '\n' :: rest => cur.reverse :: split_nn_go [] rest
  | c :: rest => split_nn_go (c :: cur) rest

/-- Python `text.split('\n\n')` (leftmost non-overlapping occurrences). -/
def split_nn (t : List Char) : List (List Char) := split_nn_go [] t

/-- Emission step of the blank-line collapse: a run of `n` consecutive
newlines is replaced by two when `n ≥ 3`, kept as is otherwise. -/
def collapse_emit (n : Nat) : List Char :=
  if 3 ≤ n then ['\n', '\n'] else List.replicate n '\n'

/-- Helper for `collapse_nl`: `pending` counts the newline run read so far. -/
def collapse_go (pending : Nat) : List Char → List Char
  | [] => collapse_emit pending
  | c :: rest =>
    if c = '\n' then collapse_go (pending + 1) rest
    else collapse_emit pending ++ c :: collapse_go 0 rest

/-- Python `re.sub(r'\n{3,}', '\n\n', text)`. -/
def collapse_nl (t : List Char) : List Char := collapse_go 0 t

/-- `DocumentChunker._clean_text`: collapse blank-line runs, strip every
line, rejoin with newlines and strip the result. -/
def clean_text (t : List Char) : List Char :=
  pyStrip (join_nl ((split_nl (collapse_nl t)).map pyStrip))

/-- Loop body of `DocumentChunker._chunk_fixed_size`.  Each iteration emits
`text[start : start + min S M]` and advances the cursor to
`start + min S M - O`.  The guard `O < min S M` makes the function return the
empty list exactly on the configurations where the Python loop would never
terminate (cursor failing to advance); on all other configurations a fuel of
`t.length` is exact, because the cursor advances by at least one per
iteration. -/
def fixed_go (S O M : Nat) (t : List Char) : Nat → Nat → List (List Char)
  | 0, _ => []
  | fuel + 1, start =>
    if start < t.length ∧ O < min S M then
      ((t.drop start).take (min S M)) :: fixed_go S O M t fuel (start + (min S M - O))
    else []

/-- `DocumentChunker._chunk_fixed_size`. -/
def chunk_fixed_size (S O M : Nat) (t : List Char) : List (List Char) :=
  fixed_go S O M t t.length 0

/-- Literal step-indexed transcription of the `while start < text_len` loop of
`_chunk_fixed_size`: `none` means the loop did not finish within `fuel`
iterations. -/
def chunk_fixed_loop (S O M : Nat) (t : List Char) : Nat → Nat → Option (List (List Char))
  | 0, start => if start < t.length then none else some []
  | fuel + 1, start =>
    if start < t.length then
      (chunk_fixed_loop S O M t fuel (start + min S M - O)).map
        (fun rest => ((t.drop start).take (min S M)) :: rest)
    else some []

/-- Scanner for `re.split(r'([。！？.!?]+\s*)', text)`.  State: `seg` is the
reversed current plain segment; when `d = true` a delimiter is being read,
with `p` the reversed punctuation run (non-empty) and `w` the reversed
trailing-whitespace run.  Returns the list of (segment, delimiter) pairs and
the trailing segment. -/
def sent_go (seg p w : List Char) (d : Bool) : List Char → List (List Char × List Char) × List Char
  | [] =>
    if d then ([(seg.reverse, p.reverse ++ w.reverse)], [])
    else ([], seg.reverse)
  | c :: rest =>
    if d then
      if isPunct c && w.isEmpty then sent_go seg (c :: p) w true rest
      else if isSpaceChar c then sent_go seg p (c :: w) true rest
      else if isPunct c then
        let r := sent_go [] [c] [] true rest
        ((seg.reverse, p.reverse ++ w.reverse) :: r.1, r.2)
      else
        let r := sent_go [c] [] [] false rest
        ((seg.reverse, p.reverse ++ w.reverse) :: r.1, r.2)
    else
      if isPunct c then sent_go seg [c] [] true rest
      else sent_go (c :: seg) [] [] false rest

/-- The regex split of `_chunk_by_sentences`, as (segment, delimiter) pairs
plus the trailing segment (the odd-length flat list Python produces is exactly
this shape). -/
def re_split_sent (t : List Char) : List (List Char × List Char) × List Char :=
  sent_go [] [] [] false t

/-- The `sentence_list` built by `_chunk_by_sentences`: every segment is glued
to its delimiter and kept when non-blank; the trailing segment is kept when
non-blank. -/
def sentence_list (t : List Char) : List (List Char) :=
  let r := re_split_sent t
  (r.1.filterMap fun sd =>
    if (pyStrip (sd.1 ++ sd.2)).isEmpty then none else some (sd.1 ++ sd.2))
  ++ (if (pyStrip r.2).isEmpty then [] else [r.2])

/-- Greedy packing loop shared by the sentence strategy: accumulate while the
buffer stays within `S`, flush the non-empty buffer otherwise. -/
def pack_sentences (S : Nat) (cur : List Char) : List (List Char) → List (List Char)
  | [] => if cur.isEmpty then [] else [cur]
  | s :: rest =>
    if cur.length + s.length ≤ S then pack_sentences S (cur ++ s) rest
    else if cur.isEmpty then pack_sentences S s rest
    else cur :: pack_sentences S s rest

/-- `DocumentChunker._chunk_by_sentences`, including its fallback to the
fixed-size splitter when zero chunks result or a single chunk exceeds `S`. -/
def chunk_by_sentences (S O M : Nat) (t : List Char) : List (List Char) :=
  let chunks := pack_sentences S [] (sentence_list t)
  if chunks.length = 0 ∨ (chunks.length = 1 ∧ S < (chunks.headD []).length) then
    chunk_fixed_size S O M t
  else chunks

/-- The separator `"\n\n"` appended after every packed paragraph. -/
def nn2 : List Char := ['\n', '\n']

/-- Greedy paragraph packing of `_chunk_by_paragraphs`: each paragraph is
appended with a trailing blank line; flushed buffers are stripped. -/
def pack_paragraphs (S : Nat) (cur : List Char) : List (List Char) → List (List Char)
  | [] => if (pyStrip cur).isEmpty then [] else [pyStrip cur]
  | p :: rest =>
    if cur.length + p.length + 2 ≤ S then pack_paragraphs S (cur ++ p ++ nn2) rest
    else if cur.isEmpty then pack_paragraphs S (p ++ nn2) rest
    else pyStrip cur :: pack_paragraphs S (p ++ nn2) rest

/-- Weight of a chunk one re-split level down (used by the termination fuel of
the re-split loop). -/
def sub_weight (S O M : Nat) (e : List Char) : Nat :=
  if e.length ≤ M then 1 else 2 + (chunk_by_sentences S O M e).tail.length

/-- Weight of a chunk for the re-split fuel: 1 when within the cap, otherwise
2 plus the weights of the re-examined part of its sentence re-split. -/
def resplit_weight (S O M : Nat) (c : List Char) : Nat :=
  if c.length ≤ M then 1
  else 2 + ((chunk_by_sentences S O M c).tail.map (sub_weight S O M)).sum

/-- Fuel bound for the re-split loop: the sum of the chunk weights. -/
def resplit_measure (S O M : Nat) (l : List (List Char)) : Nat :=
  (l.map (resplit_weight S O M)).sum

/-- The oversize re-split loop of `_chunk_by_paragraphs`
(`chunks[i:i+1] = self._chunk_by_sentences(chunk)` under
`for i, chunk in enumerate(chunks)`).  Python's list iterator keeps its own
index across the in-place splice, so the first element of every replacement is
never re-examined while the remaining ones are, and when a replacement is
empty the following element is skipped.  The fuel counts loop iterations; on
the configurations used by the theorems (`O < S ≤ M`) the chosen fuel
`resplit_measure` is proved sufficient. -/
def resplit_go (S O M : Nat) : Nat → List (List Char) → List (List Char)
  | _, [] => []
  | 0, l => l
  | fuel + 1, c :: rest =>
    if M < c.length then
      match chunk_by_sentences S O M c with
      | [] =>
        match rest with
        | [] => []
        | r :: rest2 => r :: resplit_go S O M fuel rest2
      | s :: ss => s :: resplit_go S O M fuel (ss ++ rest)
    else c :: resplit_go S O M fuel rest

/-- The re-split pass with its proven-sufficient fuel. -/
def resplit (S O M : Nat) (l : List (List Char)) : List (List Char) :=
  resplit_go S O M (resplit_measure S O M l) l

/-- `DocumentChunker._chunk_by_paragraphs`. -/
def chunk_by_paragraphs (S O M : Nat) (t : List Char) : List (List Char) :=
  let ps := ((split_nn t).map pyStrip).filter (fun p => !p.isEmpty)
  if ps.isEmpty then chunk_by_sentences S O M t
  else
    let chunks := pack_paragraphs S [] ps
    if chunks.isEmpty then chunk_by_sentences S O M t
    else resplit S O M chunks

/-- The `ChunkingStrategy` enumeration. -/
inductive Strategy where
  | fixed_size
  | sentence_based
  | paragraph_based
  | semantic
deriving DecidableEq

/-- Values stored in a chunk's metadata mapping. -/
inductive MVal where
  | nat : Nat → MVal
  | str : List Char → MVal
  | strat : Strategy → MVal
deriving DecidableEq

/-- A metadata mapping (Python dict of string keys). -/
def MetaMap : Type := String → Option MVal

/-- The empty base metadata. -/
def noBase : MetaMap := fun _ => none

/-- The per-chunk metadata dict built by `chunk_text`:
`{**base_metadata, "chunk_id": i, "chunk_index": i, "strategy": ..,
"chunk_size": len(chunk_text)}` - the four reserved keys override the base. -/
def chunk_meta (base : MetaMap) (strat : Strategy) (i : Nat) (c : List Char) : MetaMap :=
  fun k =>
    if k = "chunk_id" then some (MVal.nat i)
    else if k = "chunk_index" then some (MVal.nat i)
    else if k = "strategy" then some (MVal.strat strat)
    else if k = "chunk_size" then some (MVal.nat c.length)
    else base k

/-- Enumeration with a starting index (Python's `enumerate`). -/
def map_idx (f : Nat → α → β) : Nat → List α → List β
  | _, [] => []
  | i, a :: rest => f i a :: map_idx f (i + 1) rest

/-- The strategy dispatch of `chunk_text`.  The `semantic` branch reuses the
sentence splitter (reserved placeholder in the source). -/
def strategy_chunks (strat : Strategy) (S O M : Nat) (t : List Char) : List (List Char) :=
  match strat with
  | .fixed_size => chunk_fixed_size S O M t
  | .sentence_based => chunk_by_sentences S O M t
  | .paragraph_based => chunk_by_paragraphs S O M t
  | .semantic => chunk_by_sentences S O M t

/-- `DocumentChunker.chunk_text`: empty-input guard, text cleaning, strategy
dispatch and metadata assembly. -/
def chunk_text (strat : Strategy) (S O M : Nat) (text : List Char) (base : MetaMap) :
    List (List Char × MetaMap) :=
  if (pyStrip text).isEmpty then []
  else
    map_idx (fun i c => (c, chunk_meta base strat i c)) 0
      (strategy_chunks strat S O M (clean_text text))

/-- The heading regex `^(#{1,6})\s+(.+)$` of `chunk_markdown`, returning the
second capture group.  Backtracking of the greedy `\s+` against `(.+)$` means
that on a line whose tail is all whitespace the group captures the final
whitespace character. -/
def heading_match (line : List Char) : Option (List Char) :=
  let hashes := line.takeWhile (fun c => c = '#')
  let rest := line.dropWhile (fun c => c = '#')
  if hashes.length = 0 ∨ 7 ≤ hashes.length then none
  else
    let w := rest.takeWhile isSpaceChar
    let rem := rest.drop w.length
    if w.isEmpty then none
    else if rem.isEmpty then
      if 2 ≤ w.length then some [w.getLastD ' '] else none
    else some rem

/-- The per-section metadata of `chunk_markdown`:
`{**base_metadata, "heading": .., "format": "markdown"}`. -/
def md_meta (base : MetaMap) (heading : List Char) : MetaMap :=
  fun k =>
    if k = "heading" then some (MVal.str heading)
    else if k = "format" then some (MVal.str ("markdown".toList))
    else base k

/-- The sub-chunk metadata `{**chunk_metadata, "sub_chunk_id": i}`. -/
def md_sub (m : MetaMap) (i : Nat) : MetaMap :=
  fun k => if k = "sub_chunk_id" then some (MVal.nat i) else m k

/-- The heading scan of `chunk_markdown`.  On a heading line with a non-empty
buffer: emit the stripped buffer under the current heading, reset the buffer
and only then update the heading; a heading line seen with an empty buffer
does not update the current heading.  Every line, heading or not, is appended
to the buffer. -/
def md_scan (base : MetaMap) : List (List Char) → List (List Char) → List Char →
    List (List Char × MetaMap)
  | [], buf, heading =>
    if buf.isEmpty then [] else [(pyStrip (join_nl buf), md_meta base heading)]
  | line :: rest, buf, heading =>
    match heading_match line with
    | some h =>
      if buf.isEmpty then md_scan base rest (buf ++ [line]) heading
      else (pyStrip (join_nl buf), md_meta base heading) :: md_scan base rest [line] h
    | none => md_scan base rest (buf ++ [line]) heading

/-- Concatenating map (used for the markdown post-processing loop). -/
def flat_map (f : α → List β) : List α → List β
  | [] => []
  | a :: rest => f a ++ flat_map f rest

/-- `DocumentChunker.chunk_markdown`: split on heading lines, then re-split
every section longer than `S` with the sentence splitter, tagging sub-chunks
with `sub_chunk_id`. -/
def chunk_markdown (S O M : Nat) (t : List Char) (base : MetaMap) :
    List (List Char × MetaMap) :=
  let secs := md_scan base (split_nl t) [] ("Introduction".toList)
  flat_map
    (fun p =>
      if S < p.1.length then
        map_idx (fun i c => (c, md_sub p.2 i)) 0 (chunk_by_sentences S O M p.1)
      else [p])
    secs

/-- The module-level convenience function `chunk_document`, with the default
`DEFAULT_CHUNKER` (sentence-based, 500/50/1000) and `MARKDOWN_CHUNKER`
(800/100/1000) configurations. -/
def chunk_document (text : List Char) (strat : Option Strategy) (base : MetaMap)
    (is_markdown : Bool) : List (List Char × MetaMap) :=
  if is_markdown then chunk_markdown 800 100 1000 text base
  else
    match strat with
    | some s => chunk_text s 500 50 1000 text base
    | none => chunk_text .sentence_based 500 50 1000 text base

/-- The last `n` characters of a list. -/
def takeLast (n : Nat) (l : List Char) : List Char := l.drop (l.length - n)



/-! ### Basic helper lemmas -/

lemma not_punct_of_space {c : Char} (h : isSpaceChar c = true) : isPunct c = false := by
  simp only [isSpaceChar, Bool.or_eq_true, decide_eq_true_eq] at h
  rcases h with ((((h | h) | h) | h) | h) | h <;> subst h <;> rfl

lemma mem_of_mem_dropWhile {p : α → Bool} {l : List α} {x : α}
    (h : x ∈ l.dropWhile p) : x ∈ l := by
  induction l with
  | nil => simp [List.dropWhile] at h
  | cons a l ih =>
    by_cases hp : p a
    · simp only [List.dropWhile, hp] at h
      exact List.mem_cons_of_mem a (ih h)
    · simpa [List.dropWhile, hp] using h

lemma pred_of_mem_takeWhile {p : α → Bool} {l : List α} {x : α}
    (h : x ∈ l.takeWhile p) : p x = true := by
  induction l with
  | nil => simp [List.takeWhile] at h
  | cons a l ih =>
    by_cases hp : p a
    · simp only [List.takeWhile, hp] at h
      rcases List.mem_cons.1 h with h | h
      · subst h; exact hp
      · exact ih h
    · simp [List.takeWhile, hp] at h

lemma pyStrip_eq_nil_iff {l : List Char} :
    pyStrip l = [] ↔ ∀ c ∈ l, isSpaceChar c = true := by
  unfold pyStrip
  rw [List.reverse_eq_nil_iff, List.dropWhile_eq_nil_iff]
  constructor
  · intro h c hc
    rcases List.mem_append.1 ((List.takeWhile_append_dropWhile (p := isSpaceChar) (l := l)) ▸ hc) with h1 | h1
    · exact pred_of_mem_takeWhile h1
    · exact h c (List.mem_reverse.2 h1)
  · intro h c hc
    exact h c (mem_of_mem_dropWhile (List.mem_reverse.1 hc))

lemma pyStrip_ne_nil_append {a p b : List Char} (h : pyStrip p ≠ []) :
    pyStrip (a ++ p ++ b) ≠ [] := by
  intro hc
  apply h
  rw [pyStrip_eq_nil_iff] at hc ⊢
  intro c hcp
  exact hc c (by simp [hcp])

/-! ### Fixed-size splitter lemmas -/

lemma fixed_go_mem {S O M : Nat} {t c : List Char} :
    ∀ {fuel start : Nat}, c ∈ fixed_go S O M t fuel start →
      ∃ st, st < t.length ∧ O < min S M ∧ c = (t.drop st).take (min S M) := by
  intro fuel
  induction fuel with
  | zero => intro start h; simp [fixed_go] at h
  | succ fuel ih =>
    intro start h
    by_cases hg : start < t.length ∧ O < min S M
    · simp only [fixed_go, if_pos hg] at h
      rcases List.mem_cons.1 h with h | h
      · exact ⟨start, hg.1, hg.2, h⟩
      · exact ih h
    · simp only [fixed_go] at h
      rw [if_neg hg] at h
      exact absurd h (List.not_mem_nil c)

lemma fixed_mem_length {S O M : Nat} {t c : List Char}
    (h : c ∈ chunk_fixed_size S O M t) : c.length ≤ min S M := by
  obtain ⟨st, -, -, rfl⟩ := fixed_go_mem h
  simp [List.length_take]

lemma fixed_mem_ne_nil {S O M : Nat} {t c : List Char}
    (h : c ∈ chunk_fixed_size S O M t) : c ≠ [] := by
  obtain ⟨st, hst, hO, rfl⟩ := fixed_go_mem h
  have hdrop : (t.drop st).length = t.length - st := List.length_drop ..
  intro hc
  have := congrArg List.length hc
  simp only [List.length_take, List.length_nil, hdrop] at this
  omega

lemma chunk_fixed_size_ne_nil {S O M : Nat} {t : List Char}
    (hO : O < min S M) (ht : t ≠ []) : chunk_fixed_size S O M t ≠ [] := by
  have hlen : 0 < t.length := List.length_pos.2 ht
  unfold chunk_fixed_size
  obtain ⟨n, hn⟩ : ∃ n, t.length = n + 1 := ⟨t.length - 1, by omega⟩
  rw [hn]
  simp only [fixed_go]
  rw [if_pos ⟨hlen, hO⟩]
  simp

lemma fixed_go_getElem? {S O M : Nat} {t : List Char} (hO : O < min S M) :
    ∀ (i fuel start : Nat), t.length - start ≤ fuel →
      (fixed_go S O M t fuel start)[i]? =
        if start + i * (min S M - O) < t.length then
          some ((t.drop (start + i * (min S M - O))).take (min S M))
        else none := by
  intro i
  induction i with
  | zero =>
    intro fuel start hfuel
    rw [if_congr (by omega : (start + 0 * (min S M - O) < t.length) ↔ (start < t.length))
      rfl rfl]
    rcases fuel with - | fuel
    · have hs : ¬ start < t.length := by omega
      simp only [fixed_go]
      simp [hs]
    · by_cases hs : start < t.length
      · simp only [fixed_go]
        rw [if_pos ⟨hs, hO⟩]
        simp [hs]
      · simp only [fixed_go]
        rw [if_neg (fun hc : _ ∧ _ => hs hc.1)]
        simp [hs]
  | succ i ih =>
    intro fuel start hfuel
    rcases fuel with - | fuel
    · have hs : ¬ start < t.length := by omega
      simp only [fixed_go]
      rw [if_neg (by omega : ¬ start + (i + 1) * (min S M - O) < t.length)]
      simp
    · by_cases hs : start < t.length
      · simp only [fixed_go]
        rw [if_pos ⟨hs, hO⟩]
        have harith : start + (min S M - O) + i * (min S M - O) = start + (i + 1) * (min S M - O) := by
          ring
        have hrec := ih fuel (start + (min S M - O)) (by omega)
        rw [harith] at hrec
        simpa using hrec
      · simp only [fixed_go]
        rw [if_neg (fun hc : _ ∧ _ => hs hc.1),
          if_neg (by omega : ¬ start + (i + 1) * (min S M - O) < t.length)]
        simp

lemma chunk_fixed_loop_eq {S O M : Nat} {t : List Char} (hO : O < min S M) :
    ∀ (fuel start : Nat), t.length - start ≤ fuel →
      chunk_fixed_loop S O M t fuel start = some (fixed_go S O M t fuel start) := by
  intro fuel
  induction fuel with
  | zero =>
    intro start hfuel
    have hs : ¬ start < t.length := by omega
    simp only [chunk_fixed_loop, fixed_go]
    simp [hs]
  | succ fuel ih =>
    intro start hfuel
    by_cases hs : start < t.length
    · have hadv : start + min S M - O = start + (min S M - O) := by omega
      simp only [chunk_fixed_loop]
      rw [if_pos hs, hadv, ih (start + (min S M - O)) (by omega)]
      simp only [fixed_go]
      rw [if_pos ⟨hs, hO⟩]
      rfl
    · simp only [chunk_fixed_loop, fixed_go]
      rw [if_neg hs, if_neg (fun hc : _ ∧ _ => hs hc.1)]


/-! ### Sentence scanner lemmas -/

lemma sent_go_seg_step {seg q v : List Char} {c : Char} (hc : isPunct c = false) (l : List Char) :
    sent_go seg q v false (c :: l) = sent_go (c :: seg) [] [] false l := by
  simp [sent_go, hc]

lemma sent_go_start_step {seg q v : List Char} {c : Char} (hc : isPunct c = true) (l : List Char) :
    sent_go seg q v false (c :: l) = sent_go seg [c] [] true l := by
  simp [sent_go, hc]

lemma sent_go_punct_step {seg q w : List Char} {c : Char}
    (hc : isPunct c = true) (hw : w = []) (l : List Char) :
    sent_go seg q w true (c :: l) = sent_go seg (c :: q) w true l := by
  subst hw
  simp [sent_go, hc]

lemma sent_go_ws_step {seg q v : List Char} {c : Char} (hc : isSpaceChar c = true) (l : List Char) :
    sent_go seg q v true (c :: l) = sent_go seg q (c :: v) true l := by
  have hp : isPunct c = false := not_punct_of_space hc
  simp [sent_go, hc, hp]

lemma sent_go_seg_ext :
    ∀ (l : List Char), (∀ c ∈ l, isPunct c = false) →
      ∀ (seg r : List Char),
        sent_go seg [] [] false (l ++ r) = sent_go (l.reverse ++ seg) [] [] false r := by
  intro l
  induction l with
  | nil => intro h seg r; simp
  | cons c l ih =>
    intro h seg r
    rw [List.cons_append, sent_go_seg_step (h c (by simp)) (l ++ r),
      ih (fun x hx => h x (by simp [hx])) (c :: seg) r]
    simp

lemma sent_go_punct_ext :
    ∀ (l : List Char), (∀ c ∈ l, isPunct c = true) →
      ∀ (seg q r : List Char),
        sent_go seg q [] true (l ++ r) = sent_go seg (l.reverse ++ q) [] true r := by
  intro l
  induction l with
  | nil => intro h seg q r; simp
  | cons c l ih =>
    intro h seg q r
    rw [List.cons_append, sent_go_punct_step (h c (by simp)) rfl (l ++ r),
      ih (fun x hx => h x (by simp [hx])) seg (c :: q) r]
    simp

lemma sent_go_ws_ext :
    ∀ (l : List Char), (∀ c ∈ l, isSpaceChar c = true) →
      ∀ (seg q v r : List Char),
        sent_go seg q v true (l ++ r) = sent_go seg q (l.reverse ++ v) true r := by
  intro l
  induction l with
  | nil => intro h seg q v r; simp
  | cons c l ih =>
    intro h seg q v r
    rw [List.cons_append, sent_go_ws_step (h c (by simp)) (l ++ r),
      ih (fun x hx => h x (by simp [hx])) seg q (c :: v) r]
    simp

lemma re_split_sent_glued {seg p w : List Char}
    (hseg : ∀ c ∈ seg, isPunct c = false)
    (hp : ∀ c ∈ p, isPunct c = true) (hpne : p ≠ [])
    (hw : ∀ c ∈ w, isSpaceChar c = true) :
    re_split_sent (seg ++ (p ++ w)) = ([(seg, p ++ w)], []) := by
  obtain ⟨c, p', rfl⟩ : ∃ c p', p = c :: p' := by
    cases p with
    | nil => exact absurd rfl hpne
    | cons c p' => exact ⟨c, p', rfl⟩
  have hc : isPunct c = true := hp c (by simp)
  unfold re_split_sent
  rw [sent_go_seg_ext seg hseg [] (c :: p' ++ w), List.cons_append,
    sent_go_start_step hc (p' ++ w),
    sent_go_punct_ext p' (fun x hx => hp x (by simp [hx])) (seg.reverse ++ []) [c] w,
    show w = w ++ [] by simp,
    sent_go_ws_ext w hw (seg.reverse ++ []) (p'.reverse ++ [c]) [] []]
  simp [sent_go]

lemma re_split_sent_of_punct_free {l : List Char} (h : ∀ c ∈ l, isPunct c = false) :
    re_split_sent l = ([], l) := by
  unfold re_split_sent
  rw [show l = l ++ [] by simp, sent_go_seg_ext l h [] []]
  simp [sent_go]

lemma not_space_of_punct {c : Char} (h : isPunct c = true) : isSpaceChar c = false := by
  simp only [isPunct, Bool.or_eq_true, decide_eq_true_eq] at h
  rcases h with ((((h | h) | h) | h) | h) | h <;> subst h <;> rfl

lemma sent_go_emit_punct_step {seg q v : List Char} {c : Char}
    (hc : isPunct c = true) (hv : v ≠ []) (l : List Char) :
    sent_go seg q v true (c :: l) =
      ((seg.reverse, q.reverse ++ v.reverse) :: (sent_go [] [c] [] true l).1,
        (sent_go [] [c] [] true l).2) := by
  have hs : isSpaceChar c = false := not_space_of_punct hc
  have hv' : v.isEmpty = false := by
    cases v with
    | nil => exact absurd rfl hv
    | cons a v => rfl
  simp [sent_go, hc, hs, hv']

lemma sent_go_emit_seg_step {seg q v : List Char} {c : Char}
    (hcp : isPunct c = false) (hcw : isSpaceChar c = false) (l : List Char) :
    sent_go seg q v true (c :: l) =
      ((seg.reverse, q.reverse ++ v.reverse) :: (sent_go [c] [] [] false l).1,
        (sent_go [c] [] [] false l).2) := by
  simp [sent_go, hcp, hcw]

lemma sent_go_shape :
    ∀ (l seg p w : List Char) (d : Bool),
      (∀ c ∈ seg, isPunct c = false) →
      (∀ c ∈ p, isPunct c = true) →
      (∀ c ∈ w, isSpaceChar c = true) →
      (d = true → p ≠ []) →
      (∀ sd ∈ (sent_go seg p w d l).1,
          (∀ c ∈ sd.1, isPunct c = false) ∧
          ∃ pp ww, sd.2 = pp ++ ww ∧ pp ≠ [] ∧
            (∀ c ∈ pp, isPunct c = true) ∧ (∀ c ∈ ww, isSpaceChar c = true)) ∧
      (∀ c ∈ (sent_go seg p w d l).2, isPunct c = false) := by
  intro l
  induction l with
  | nil =>
    intro seg p w d hseg hp hw hd
    cases d with
    | false =>
      refine ⟨fun sd hsd => ?_, fun c hc => ?_⟩
      · simp [sent_go] at hsd
      · simp only [sent_go, if_neg (by simp : ¬ (false = true))] at hc
        exact hseg c (List.mem_reverse.1 hc)
    | true =>
      refine ⟨fun sd hsd => ?_, fun c hc => ?_⟩
      · simp only [sent_go, if_true, List.mem_singleton, if_pos (rfl : (true : Bool) = true)] at hsd
        subst hsd
        exact ⟨fun c hc => hseg c (List.mem_reverse.1 hc), p.reverse, w.reverse, rfl,
          by simpa using hd rfl, fun c hc => hp c (List.mem_reverse.1 hc),
          fun c hc => hw c (List.mem_reverse.1 hc)⟩
      · simp [sent_go] at hc
  | cons c rest ih =>
    intro seg p w d hseg hp hw hd
    cases d with
    | false =>
      by_cases hc : isPunct c = true
      · rw [sent_go_start_step hc rest]
        exact ih seg [c] [] true hseg (by simp [hc]) (by simp) (fun _ => by simp)
      · have hc' : isPunct c = false := Bool.eq_false_iff.2 hc
        rw [sent_go_seg_step hc' rest]
        refine ih (c :: seg) [] [] false ?_ (by simp) (by simp) (by simp)
        intro x hx
        rcases List.mem_cons.1 hx with h | h
        · subst h; exact hc'
        · exact hseg x h
    | true =>
      by_cases hc : isPunct c = true
      · by_cases hw0 : w = []
        · rw [sent_go_punct_step hc hw0 rest]
          refine ih seg (c :: p) w true hseg ?_ hw (fun _ => by simp)
          intro x hx
          rcases List.mem_cons.1 hx with h | h
          · subst h; exact hc
          · exact hp x h
        · rw [sent_go_emit_punct_step hc hw0 rest]
          have hrec := ih [] [c] [] true (by simp) (by simp [hc]) (by simp) (fun _ => by simp)
          refine ⟨fun sd hsd => ?_, hrec.2⟩
          rcases List.mem_cons.1 hsd with h | h
          · subst h
            exact ⟨fun x hx => hseg x (List.mem_reverse.1 hx), p.reverse, w.reverse, rfl,
              by simpa using hd rfl, fun x hx => hp x (List.mem_reverse.1 hx),
              fun x hx => hw x (List.mem_reverse.1 hx)⟩
          · exact hrec.1 sd h
      · have hc' : isPunct c = false := Bool.eq_false_iff.2 hc
        by_cases hs : isSpaceChar c = true
        · rw [sent_go_ws_step hs rest]
          refine ih seg p (c :: w) true hseg hp ?_ hd
          intro x hx
          rcases List.mem_cons.1 hx with h | h
          · subst h; exact hs
          · exact hw x h
        · have hs' : isSpaceChar c = false := Bool.eq_false_iff.2 hs
          rw [sent_go_emit_seg_step hc' hs' rest]
          have hrec := ih [c] [] [] false (by simp [hc']) (by simp) (by simp) (by simp)
          refine ⟨fun sd hsd => ?_, hrec.2⟩
          rcases List.mem_cons.1 hsd with h | h
          · subst h
            exact ⟨fun x hx => hseg x (List.mem_reverse.1 hx), p.reverse, w.reverse, rfl,
              by simpa using hd rfl, fun x hx => hp x (List.mem_reverse.1 hx),
              fun x hx => hw x (List.mem_reverse.1 hx)⟩
          · exact hrec.1 sd h

lemma sent_go_decomp :
    ∀ (l seg p w : List Char) (d : Bool),
      ((sent_go seg p w d l).1.map (fun sd => sd.1 ++ sd.2)).flatten ++ (sent_go seg p w d l).2
        = (if d = true then seg.reverse ++ (p.reverse ++ w.reverse) else seg.reverse) ++ l := by
  intro l
  induction l with
  | nil =>
    intro seg p w d
    cases d with
    | false => simp [sent_go]
    | true => simp [sent_go]
  | cons c rest ih =>
    intro seg p w d
    cases d with
    | false =>
      by_cases hc : isPunct c = true
      · rw [sent_go_start_step hc rest, ih seg [c] [] true]
        simp
      · rw [sent_go_seg_step (Bool.eq_false_iff.2 hc) rest, ih (c :: seg) [] [] false]
        simp
    | true =>
      by_cases hc : isPunct c = true
      · by_cases hw0 : w = []
        · rw [sent_go_punct_step hc hw0 rest, ih seg (c :: p) w true]
          subst hw0
          simp
        · rw [sent_go_emit_punct_step hc hw0 rest]
          simp only [List.map_cons, List.flatten_cons, List.append_assoc]
          rw [ih [] [c] [] true]
          simp
      · by_cases hs : isSpaceChar c = true
        · rw [sent_go_ws_step hs rest, ih seg p (c :: w) true]
          simp
        · rw [sent_go_emit_seg_step (Bool.eq_false_iff.2 hc) (Bool.eq_false_iff.2 hs) rest]
          simp only [List.map_cons, List.flatten_cons, List.append_assoc]
          rw [ih [c] [] [] false]
          simp

/-! ### Sentence list lemmas -/

lemma isEmpty_false_of_ne_nil {l : List α} (h : l ≠ []) : l.isEmpty = false := by
  cases l with
  | nil => exact absurd rfl h
  | cons a l => rfl

lemma ne_nil_of_isEmpty_false {l : List α} (h : l.isEmpty = false) : l ≠ [] := by
  cases l with
  | nil => simp at h
  | cons a l => simp

lemma pyStrip_nil : pyStrip [] = [] := rfl

lemma sentence_list_mem_cases {t e : List Char} (he : e ∈ sentence_list t) :
    (∃ sd ∈ (re_split_sent t).1, e = sd.1 ++ sd.2 ∧ pyStrip e ≠ []) ∨
      (e = (re_split_sent t).2 ∧ pyStrip e ≠ []) := by
  simp only [sentence_list] at he
  rcases List.mem_append.1 he with h | h
  · obtain ⟨sd, hsd, hmap⟩ := List.mem_filterMap.1 h
    by_cases hstrip : (pyStrip (sd.1 ++ sd.2)).isEmpty
    · rw [if_pos hstrip] at hmap
      exact absurd hmap (by simp)
    · rw [if_neg hstrip] at hmap
      obtain rfl : sd.1 ++ sd.2 = e := by simpa using hmap
      exact Or.inl ⟨sd, hsd, rfl, ne_nil_of_isEmpty_false (Bool.eq_false_iff.2 hstrip)⟩
  · by_cases hstrip : (pyStrip (re_split_sent t).2).isEmpty
    · rw [if_pos hstrip] at h
      simp at h
    · rw [if_neg hstrip] at h
      obtain rfl : e = (re_split_sent t).2 := by simpa using h
      exact Or.inr ⟨rfl, ne_nil_of_isEmpty_false (Bool.eq_false_iff.2 hstrip)⟩

lemma sentence_list_atomic {t e : List Char} (he : e ∈ sentence_list t) :
    sentence_list e = [e] := by
  have hshape := sent_go_shape t [] [] [] false (by simp) (by simp) (by simp) (by simp)
  rcases sentence_list_mem_cases he with ⟨sd, hsd, hglue, hstrip⟩ | ⟨hlast, hstrip⟩
  · obtain ⟨hsegfree, pp, ww, hdelim, hppne, hppall, hwwall⟩ := hshape.1 sd hsd
    have hre : re_split_sent (sd.1 ++ (pp ++ ww)) = ([(sd.1, pp ++ ww)], []) :=
      re_split_sent_glued hsegfree hppall hppne hwwall
    have he' : e = sd.1 ++ (pp ++ ww) := by rw [hglue, hdelim]
    rw [he'] at hstrip ⊢
    have hfalse : (pyStrip (sd.1 ++ (pp ++ ww))).isEmpty = false :=
      isEmpty_false_of_ne_nil hstrip
    simp [sentence_list, hre, hfalse, pyStrip_nil, hstrip]
  · have hfree : ∀ c ∈ e, isPunct c = false := by
      intro c hc
      exact hshape.2 c (hlast ▸ hc)
    have hre := re_split_sent_of_punct_free hfree
    have hfalse : (pyStrip e).isEmpty = false := isEmpty_false_of_ne_nil hstrip
    simp [sentence_list, hre, hfalse]

lemma mem_length_le_flatten {L : List (List Char)} {x : List Char} (h : x ∈ L) :
    x.length ≤ L.flatten.length := by
  induction L with
  | nil => simp at h
  | cons a L ih =>
    rcases List.mem_cons.1 h with h1 | h1
    · subst h1
      simp [List.length_append]
    · have := ih h1
      simp only [List.flatten_cons, List.length_append]
      omega

lemma re_split_sent_decomp (t : List Char) :
    ((re_split_sent t).1.map (fun sd => sd.1 ++ sd.2)).flatten ++ (re_split_sent t).2 = t := by
  have h := sent_go_decomp t [] [] [] false
  simpa using h

lemma sentence_mem_length {t e : List Char} (he : e ∈ sentence_list t) :
    e.length ≤ t.length := by
  have hdec := re_split_sent_decomp t
  have hlen := congrArg List.length hdec
  rw [List.length_append] at hlen
  rcases sentence_list_mem_cases he with ⟨sd, hsd, hglue, -⟩ | ⟨hlast, -⟩
  · have hmem : sd.1 ++ sd.2 ∈ (re_split_sent t).1.map (fun sd => sd.1 ++ sd.2) :=
      List.mem_map_of_mem _ hsd
    have := mem_length_le_flatten hmem
    rw [hglue]
    omega
  · rw [hlast]
    omega

/-! ### Greedy packing lemmas -/

lemma pack_sentences_mem {S : Nat} :
    ∀ {sl : List (List Char)} {cur c : List Char},
      c ∈ pack_sentences S cur sl → c.length ≤ S ∨ c = cur ∨ c ∈ sl := by
  intro sl
  induction sl with
  | nil =>
    intro cur c h
    simp only [pack_sentences] at h
    by_cases hcur : cur.isEmpty
    · rw [if_pos hcur] at h
      simp at h
    · rw [if_neg hcur] at h
      exact Or.inr (Or.inl (by simpa using h))
  | cons s rest ih =>
    intro cur c h
    simp only [pack_sentences] at h
    by_cases hfit : cur.length + s.length ≤ S
    · rw [if_pos hfit] at h
      rcases ih h with h1 | h1 | h1
      · exact Or.inl h1
      · subst h1
        exact Or.inl (by simpa using hfit)
      · exact Or.inr (Or.inr (List.mem_cons_of_mem s h1))
    · rw [if_neg hfit] at h
      by_cases hcur : cur.isEmpty
      · rw [if_pos hcur] at h
        rcases ih h with h1 | h1 | h1
        · exact Or.inl h1
        · exact Or.inr (Or.inr (by rw [h1]; exact List.mem_cons_self s rest))
        · exact Or.inr (Or.inr (List.mem_cons_of_mem s h1))
      · rw [if_neg hcur] at h
        rcases List.mem_cons.1 h with h1 | h1
        · exact Or.inr (Or.inl h1)
        · rcases ih h1 with h2 | h2 | h2
          · exact Or.inl h2
          · exact Or.inr (Or.inr (by rw [h2]; exact List.mem_cons_self s rest))
          · exact Or.inr (Or.inr (List.mem_cons_of_mem s h2))

lemma pack_sentences_ne_nil {S : Nat} :
    ∀ {sl : List (List Char)} {cur c : List Char}, c ∈ pack_sentences S cur sl → c ≠ [] := by
  intro sl
  induction sl with
  | nil =>
    intro cur c h
    simp only [pack_sentences] at h
    by_cases hcur : cur.isEmpty
    · rw [if_pos hcur] at h
      simp at h
    · rw [if_neg hcur] at h
      obtain rfl : c = cur := by simpa using h
      exact ne_nil_of_isEmpty_false (Bool.eq_false_iff.2 hcur)
  | cons s rest ih =>
    intro cur c h
    simp only [pack_sentences] at h
    by_cases hfit : cur.length + s.length ≤ S
    · rw [if_pos hfit] at h
      exact ih h
    · rw [if_neg hfit] at h
      by_cases hcur : cur.isEmpty
      · rw [if_pos hcur] at h
        exact ih h
      · rw [if_neg hcur] at h
        rcases List.mem_cons.1 h with h1 | h1
        · subst h1
          exact ne_nil_of_isEmpty_false (Bool.eq_false_iff.2 hcur)
        · exact ih h1

lemma pack_sentences_single {S : Nat} {e : List Char} (he : e ≠ []) :
    pack_sentences S [] [e] = [e] := by
  have hne : e.isEmpty = false := isEmpty_false_of_ne_nil he
  simp only [pack_sentences]
  by_cases hfit : List.length ([] : List Char) + e.length ≤ S
  · rw [if_pos hfit]
    simp [pack_sentences, hne]
  · rw [if_neg hfit]
    simp [pack_sentences, hne]

/-! ### Sentence strategy lemmas -/

lemma chunk_by_sentences_cases {S O M : Nat} {t c : List Char}
    (h : c ∈ chunk_by_sentences S O M t) : c.length ≤ S ∨ c ∈ sentence_list t := by
  simp only [chunk_by_sentences] at h
  by_cases hcond :
      (pack_sentences S [] (sentence_list t)).length = 0 ∨
        ((pack_sentences S [] (sentence_list t)).length = 1 ∧
          S < ((pack_sentences S [] (sentence_list t)).headD []).length)
  · rw [if_pos hcond] at h
    exact Or.inl (le_trans (fixed_mem_length h) (min_le_left S M))
  · rw [if_neg hcond] at h
    rcases pack_sentences_mem h with h1 | h1 | h1
    · exact Or.inl h1
    · subst h1
      exact Or.inl (by simp)
    · exact Or.inr h1

lemma chunk_by_sentences_mem_ne_nil {S O M : Nat} {t c : List Char}
    (h : c ∈ chunk_by_sentences S O M t) : c ≠ [] := by
  simp only [chunk_by_sentences] at h
  by_cases hcond :
      (pack_sentences S [] (sentence_list t)).length = 0 ∨
        ((pack_sentences S [] (sentence_list t)).length = 1 ∧
          S < ((pack_sentences S [] (sentence_list t)).headD []).length)
  · rw [if_pos hcond] at h
    exact fixed_mem_ne_nil h
  · rw [if_neg hcond] at h
    exact pack_sentences_ne_nil h

lemma chunk_by_sentences_ne_nil {S O M : Nat} {t : List Char}
    (hOS : O < S) (hSM : S ≤ M) (ht : t ≠ []) : chunk_by_sentences S O M t ≠ [] := by
  simp only [chunk_by_sentences]
  by_cases hcond :
      (pack_sentences S [] (sentence_list t)).length = 0 ∨
        ((pack_sentences S [] (sentence_list t)).length = 1 ∧
          S < ((pack_sentences S [] (sentence_list t)).headD []).length)
  · rw [if_pos hcond]
    exact chunk_fixed_size_ne_nil (by omega) ht
  · rw [if_neg hcond]
    intro hc
    exact (not_or.1 hcond).1 (by simp [hc])

lemma atomic_chunk_by_sentences {S O M : Nat} {e : List Char}
    (he : sentence_list e = [e]) (hene : e ≠ []) :
    chunk_by_sentences S O M e = [e] ∨ ∀ f ∈ chunk_by_sentences S O M e, f.length ≤ M := by
  simp only [chunk_by_sentences, he, pack_sentences_single hene]
  by_cases hS : S < e.length
  · refine Or.inr fun f hf => ?_
    rw [if_pos (by simp [hS])] at hf
    exact le_trans (fixed_mem_length hf) (min_le_right S M)
  · rw [if_neg (by simp [hS])]
    exact Or.inl rfl

lemma oversized_mem_sentence_list {S O M : Nat} {c e : List Char} (hSM : S ≤ M)
    (hc : e ∈ chunk_by_sentences S O M c) (hlen : M < e.length) : e ∈ sentence_list c := by
  rcases chunk_by_sentences_cases hc with h1 | h1
  · omega
  · exact h1

/-! ### Re-split loop lemmas -/

lemma resplit_weight_pos {S O M : Nat} (c : List Char) : 1 ≤ resplit_weight S O M c := by
  unfold resplit_weight
  by_cases h : c.length ≤ M
  · rw [if_pos h]
  · rw [if_neg h]
    omega

lemma resplit_measure_nil {S O M : Nat} : resplit_measure S O M [] = 0 := rfl

lemma resplit_measure_cons {S O M : Nat} {c : List Char} {l : List (List Char)} :
    resplit_measure S O M (c :: l) = resplit_weight S O M c + resplit_measure S O M l := by
  simp [resplit_measure]

lemma resplit_measure_append {S O M : Nat} {a b : List (List Char)} :
    resplit_measure S O M (a ++ b) = resplit_measure S O M a + resplit_measure S O M b := by
  simp [resplit_measure]

lemma sum_map_one {L : List (List Char)} {f : List Char → Nat} (h : ∀ x ∈ L, f x = 1) :
    (L.map f).sum = L.length := by
  induction L with
  | nil => simp
  | cons a L ih =>
    simp only [List.map_cons, List.sum_cons, h a (List.mem_cons_self a L), List.length_cons]
    rw [ih (fun x hx => h x (List.mem_cons_of_mem a hx))]
    omega

lemma weight_le_sub_weight {S O M : Nat} {c e : List Char} (hSM : S ≤ M) (_hc : M < c.length)
    (he : e ∈ (chunk_by_sentences S O M c).tail) :
    resplit_weight S O M e ≤ sub_weight S O M e := by
  by_cases hlen : e.length ≤ M
  · simp [resplit_weight, sub_weight, hlen]
  · have he' : e ∈ chunk_by_sentences S O M c := List.mem_of_mem_tail he
    have hover : M < e.length := by omega
    have hsl : e ∈ sentence_list c := oversized_mem_sentence_list hSM he' hover
    have hatom := sentence_list_atomic hsl
    have hene : e ≠ [] := by
      intro h
      rw [h] at hover
      simp at hover
    rcases atomic_chunk_by_sentences (S := S) (O := O) (M := M) hatom hene with hsub | hall
    · simp [resplit_weight, sub_weight, hlen, hsub]
    · have hone : ∀ x ∈ (chunk_by_sentences S O M e).tail, sub_weight S O M x = 1 := by
        intro x hx
        simp [sub_weight, hall x (List.mem_of_mem_tail hx)]
      simp only [resplit_weight, sub_weight, if_neg hlen]
      rw [sum_map_one hone]

lemma tail_measure {S O M : Nat} {c : List Char} (hSM : S ≤ M) (hc : M < c.length) :
    resplit_measure S O M (chunk_by_sentences S O M c).tail + 2 ≤ resplit_weight S O M c := by
  unfold resplit_measure
  have hle :=
    List.sum_le_sum (l := (chunk_by_sentences S O M c).tail)
      (f := resplit_weight S O M) (g := sub_weight S O M)
      (fun e hee => weight_le_sub_weight hSM hc hee)
  simp only [resplit_weight, if_neg (by omega : ¬ c.length ≤ M)]
  omega

lemma resplit_go_sound {S O M : Nat} (hOS : O < S) (hSM : S ≤ M) :
    ∀ (fuel : Nat) (l : List (List Char)), resplit_measure S O M l ≤ fuel →
      ∀ c ∈ resplit_go S O M fuel l,
        c.length ≤ M ∨ ∃ d, M < d.length ∧ c ∈ sentence_list d := by
  intro fuel
  induction fuel with
  | zero =>
    intro l hl c hc
    cases l with
    | nil => simp [resplit_go] at hc
    | cons a rest =>
      rw [resplit_measure_cons] at hl
      have := resplit_weight_pos (S := S) (O := O) (M := M) a
      omega
  | succ fuel ih =>
    intro l hl c hc
    cases l with
    | nil => simp [resplit_go] at hc
    | cons a rest =>
      rw [resplit_measure_cons] at hl
      by_cases ha : M < a.length
      · have hane : a ≠ [] := by
          intro h
          rw [h] at ha
          simp at ha
        rcases hsub : chunk_by_sentences S O M a with - | ⟨s, ss⟩
        · exact absurd hsub (chunk_by_sentences_ne_nil hOS hSM hane)
        · simp only [resplit_go, if_pos ha, hsub] at hc
          rcases List.mem_cons.1 hc with h | h
          · have hs : c ∈ chunk_by_sentences S O M a := by
              rw [hsub, h]
              exact List.mem_cons_self s ss
            rcases chunk_by_sentences_cases hs with h1 | h1
            · exact Or.inl (by omega)
            · exact Or.inr ⟨a, ha, h1⟩
          · refine ih (ss ++ rest) ?_ c h
            have htail := tail_measure (S := S) (O := O) (M := M) hSM ha
            rw [hsub] at htail
            simp only [List.tail_cons] at htail
            rw [resplit_measure_append]
            omega
      · simp only [resplit_go, if_neg ha] at hc
        rcases List.mem_cons.1 hc with h | h
        · exact Or.inl (by rw [h]; omega)
        · refine ih rest ?_ c h
          have := resplit_weight_pos (S := S) (O := O) (M := M) a
          omega

lemma resplit_go_mem {S O M : Nat} :
    ∀ (fuel : Nat) (l : List (List Char)) (c : List Char), c ∈ resplit_go S O M fuel l →
      c ∈ l ∨ ∃ d, c ∈ chunk_by_sentences S O M d := by
  intro fuel
  induction fuel with
  | zero =>
    intro l c hc
    cases l with
    | nil => simp [resplit_go] at hc
    | cons a rest => exact Or.inl (by simpa [resplit_go] using hc)
  | succ fuel ih =>
    intro l c hc
    cases l with
    | nil => simp [resplit_go] at hc
    | cons a rest =>
      by_cases ha : M < a.length
      · rcases hsub : chunk_by_sentences S O M a with - | ⟨s, ss⟩
        · simp only [resplit_go, if_pos ha, hsub] at hc
          cases rest with
          | nil => simp at hc
          | cons r rest2 =>
            rcases List.mem_cons.1 hc with h | h
            · exact Or.inl (by rw [h]; exact List.mem_cons_of_mem a (List.mem_cons_self r rest2))
            · rcases ih rest2 c h with h1 | h1
              · exact Or.inl (List.mem_cons_of_mem a (List.mem_cons_of_mem r h1))
              · exact Or.inr h1
        · simp only [resplit_go, if_pos ha, hsub] at hc
          rcases List.mem_cons.1 hc with h | h
          · exact Or.inr ⟨a, by rw [hsub, h]; exact List.mem_cons_self s ss⟩
          · rcases ih (ss ++ rest) c h with h1 | h1
            · rcases List.mem_append.1 h1 with h2 | h2
              · exact Or.inr ⟨a, by rw [hsub]; exact List.mem_cons_of_mem s h2⟩
              · exact Or.inl (List.mem_cons_of_mem a h2)
            · exact Or.inr h1
      · simp only [resplit_go, if_neg ha] at hc
        rcases List.mem_cons.1 hc with h | h
        · exact Or.inl (by rw [h]; exact List.mem_cons_self a rest)
        · rcases ih rest c h with h1 | h1
          · exact Or.inl (List.mem_cons_of_mem a h1)
          · exact Or.inr h1

/-! ### Paragraph strategy lemmas -/

lemma dropWhile_head_false {p : α → Bool} :
    ∀ {l : List α} {y : α} {ys : List α}, l.dropWhile p = y :: ys → p y = false := by
  intro l
  induction l with
  | nil => intro y ys h; simp [List.dropWhile] at h
  | cons a l ih =>
    intro y ys h
    by_cases hp : p a
    · rw [List.dropWhile_cons_of_pos hp] at h
      exact ih h
    · rw [List.dropWhile_cons_of_neg hp] at h
      obtain ⟨rfl, -⟩ := List.cons.injEq .. ▸ h
      exact Bool.eq_false_iff.2 hp

lemma pyStrip_pyStrip_ne_nil {l : List Char} (h : pyStrip l ≠ []) :
    pyStrip (pyStrip l) ≠ [] := by
  intro hc
  rw [pyStrip_eq_nil_iff] at hc
  rcases hx : ((l.dropWhile isSpaceChar).reverse.dropWhile isSpaceChar) with - | ⟨y, ys⟩
  · exact h (by simp [pyStrip, hx])
  · have hy : isSpaceChar y = false := dropWhile_head_false hx
    have hmem : y ∈ pyStrip l := by
      simp only [pyStrip, hx]
      simp
    rw [hc y hmem] at hy
    exact absurd hy (by simp)

lemma pack_paragraphs_ne_nil {S : Nat} :
    ∀ {ps : List (List Char)} {cur c : List Char},
      (∀ p ∈ ps, pyStrip p ≠ []) → (cur = [] ∨ pyStrip cur ≠ []) →
      c ∈ pack_paragraphs S cur ps → c ≠ [] := by
  intro ps
  induction ps with
  | nil =>
    intro cur c hps hcur h
    simp only [pack_paragraphs] at h
    by_cases hs : (pyStrip cur).isEmpty
    · rw [if_pos hs] at h
      simp at h
    · rw [if_neg hs] at h
      obtain rfl : c = pyStrip cur := by simpa using h
      exact ne_nil_of_isEmpty_false (Bool.eq_false_iff.2 hs)
  | cons p rest ih =>
    intro cur c hps hcur h
    have hp : pyStrip p ≠ [] := hps p (List.mem_cons_self p rest)
    have hnext : ∀ x ∈ rest, pyStrip x ≠ [] := fun x hx => hps x (List.mem_cons_of_mem p hx)
    have hpnn : pyStrip (p ++ nn2) ≠ [] := by
      have := pyStrip_ne_nil_append (a := ([] : List Char)) (b := nn2) hp
      simpa using this
    simp only [pack_paragraphs] at h
    by_cases hfit : cur.length + p.length + 2 ≤ S
    · rw [if_pos hfit] at h
      exact ih hnext (Or.inr (pyStrip_ne_nil_append (a := cur) (b := nn2) hp)) h
    · rw [if_neg hfit] at h
      by_cases hcure : cur.isEmpty
      · rw [if_pos hcure] at h
        exact ih hnext (Or.inr hpnn) h
      · rw [if_neg hcure] at h
        rcases List.mem_cons.1 h with h1 | h1
        · rcases hcur with h2 | h2
          · rw [h2] at hcure
            simp at hcure
          · rw [h1]
            intro h3
            exact h2 h3
        · exact ih hnext (Or.inr hpnn) h1

lemma chunk_by_paragraphs_mem {S O M : Nat} {t c : List Char} (hOS : O < S) (hSM : S ≤ M)
    (h : c ∈ chunk_by_paragraphs S O M t) :
    c.length ≤ M ∨ ∃ d, M < d.length ∧ c ∈ sentence_list d := by
  have hsent : ∀ x ∈ chunk_by_sentences S O M t,
      x.length ≤ M ∨ ∃ d, M < d.length ∧ x ∈ sentence_list d := by
    intro x hx
    rcases chunk_by_sentences_cases hx with h1 | h1
    · exact Or.inl (by omega)
    · by_cases hM : x.length ≤ M
      · exact Or.inl hM
      · exact Or.inr ⟨t, lt_of_lt_of_le (by omega) (sentence_mem_length h1), h1⟩
  simp only [chunk_by_paragraphs] at h
  by_cases hps : (((split_nn t).map pyStrip).filter (fun p => !p.isEmpty)).isEmpty
  · rw [if_pos hps] at h
    exact hsent c h
  · rw [if_neg hps] at h
    by_cases hch :
        (pack_paragraphs S [] (((split_nn t).map pyStrip).filter (fun p => !p.isEmpty))).isEmpty
    · rw [if_pos hch] at h
      exact hsent c h
    · rw [if_neg hch] at h
      exact resplit_go_sound hOS hSM _ _ le_rfl c h

lemma chunk_by_paragraphs_mem_ne_nil {S O M : Nat} {t c : List Char}
    (h : c ∈ chunk_by_paragraphs S O M t) : c ≠ [] := by
  simp only [chunk_by_paragraphs] at h
  by_cases hps : (((split_nn t).map pyStrip).filter (fun p => !p.isEmpty)).isEmpty
  · rw [if_pos hps] at h
    exact chunk_by_sentences_mem_ne_nil h
  · rw [if_neg hps] at h
    by_cases hch :
        (pack_paragraphs S [] (((split_nn t).map pyStrip).filter (fun p => !p.isEmpty))).isEmpty
    · rw [if_pos hch] at h
      exact chunk_by_sentences_mem_ne_nil h
    · rw [if_neg hch] at h
      rcases resplit_go_mem _ _ c h with h1 | ⟨d, h1⟩
      · refine pack_paragraphs_ne_nil ?_ (Or.inl rfl) h1
        intro p hp
        have hmem := List.mem_filter.1 hp
        obtain ⟨q, -, rfl⟩ := List.mem_map.1 hmem.1
        exact pyStrip_pyStrip_ne_nil (ne_nil_of_isEmpty_false (by simpa using hmem.2))
      · exact chunk_by_sentences_mem_ne_nil h1

/-! ### Line splitting and markdown scan lemmas -/

lemma split_nl_go_ne_nil : ∀ (t cur : List Char), split_nl_go cur t ≠ [] := by
  intro t
  induction t with
  | nil => intro cur; simp [split_nl_go]
  | cons c rest ih =>
    intro cur
    by_cases hc : c = '\n'
    · simp [split_nl_go, hc]
    · simp only [split_nl_go, if_neg hc]
      exact ih (c :: cur)

lemma join_nl_split_nl_go : ∀ (t cur : List Char),
    join_nl (split_nl_go cur t) = cur.reverse ++ t := by
  intro t
  induction t with
  | nil => intro cur; simp [split_nl_go, join_nl]
  | cons c rest ih =>
    intro cur
    by_cases hc : c = '\n'
    · subst hc
      have hstep : split_nl_go cur ('\n' :: rest) = cur.reverse :: split_nl_go [] rest := by
        simp [split_nl_go]
      rw [hstep]
      rcases hx : split_nl_go [] rest with - | ⟨x, L⟩
      · exact absurd hx (split_nl_go_ne_nil rest [])
      · have hj : join_nl (cur.reverse :: x :: L) = cur.reverse ++ '\n' :: join_nl (x :: L) := rfl
        rw [hj, ← hx, ih []]
        simp
    · simp only [split_nl_go, if_neg hc]
      rw [ih (c :: cur)]
      simp

lemma join_nl_split_nl (t : List Char) : join_nl (split_nl t) = t := by
  have := join_nl_split_nl_go t []
  simpa [split_nl] using this

lemma split_nl_go_chars : ∀ (t cur line : List Char), line ∈ split_nl_go cur t →
    ∀ c ∈ line, c ∈ cur ∨ c ∈ t := by
  intro t
  induction t with
  | nil =>
    intro cur line h c hcl
    obtain rfl : line = cur.reverse := by simpa [split_nl_go] using h
    exact Or.inl (List.mem_reverse.1 hcl)
  | cons a rest ih =>
    intro cur line h c hcl
    by_cases ha : a = '\n'
    · subst ha
      simp only [split_nl_go, if_pos rfl] at h
      rcases List.mem_cons.1 h with h1 | h1
      · rw [h1] at hcl
        exact Or.inl (List.mem_reverse.1 hcl)
      · rcases ih [] line h1 c hcl with h2 | h2
        · simp at h2
        · exact Or.inr (List.mem_cons_of_mem _ h2)
    · simp only [split_nl_go, if_neg ha] at h
      rcases ih (a :: cur) line h c hcl with h2 | h2
      · rcases List.mem_cons.1 h2 with h3 | h3
        · rw [h3]
          exact Or.inr (List.mem_cons_self a rest)
        · exact Or.inl h3
      · exact Or.inr (List.mem_cons_of_mem _ h2)

lemma not_hash_of_space {c : Char} (h : isSpaceChar c = true) : (decide (c = '#')) = false := by
  simp only [isSpaceChar, Bool.or_eq_true, decide_eq_true_eq] at h
  rcases h with ((((h | h) | h) | h) | h) | h <;> subst h <;> rfl

lemma heading_match_none_of_ws {line : List Char} (h : ∀ c ∈ line, isSpaceChar c = true) :
    heading_match line = none := by
  cases line with
  | nil => rfl
  | cons a rest =>
    have ha := not_hash_of_space (h a (List.mem_cons_self a rest))
    simp only [heading_match]
    rw [List.takeWhile_cons_of_neg (by simp [ha])]
    simp

lemma md_scan_no_heading {base : MetaMap} :
    ∀ (lines buf : List (List Char)) (heading : List Char),
      (∀ line ∈ lines, heading_match line = none) →
      md_scan base lines buf heading =
        if (buf ++ lines).isEmpty then []
        else [(pyStrip (join_nl (buf ++ lines)), md_meta base heading)] := by
  intro lines
  induction lines with
  | nil =>
    intro buf heading h
    simp [md_scan]
  | cons line rest ih =>
    intro buf heading h
    have hline : heading_match line = none := h line (List.mem_cons_self line rest)
    simp only [md_scan, hline]
    rw [ih (buf ++ [line]) heading (fun x hx => h x (List.mem_cons_of_mem line hx))]
    have hassoc : buf ++ [line] ++ rest = buf ++ line :: rest := by simp
    rw [hassoc]

/-! ### Enumeration and metadata lemmas -/

lemma map_idx_getElem? {f : Nat → α → β} :
    ∀ (l : List α) (i j : Nat), (map_idx f i l)[j]? = (l[j]?).map (f (i + j)) := by
  intro l
  induction l with
  | nil => intro i j; simp [map_idx]
  | cons a l ih =>
    intro i j
    cases j with
    | zero => simp [map_idx]
    | succ j =>
      simp only [map_idx, List.getElem?_cons_succ]
      rw [ih (i + 1) j]
      have : i + 1 + j = i + (j + 1) := by omega
      rw [this]

lemma map_idx_length {f : Nat → α → β} :
    ∀ (l : List α) (i : Nat), (map_idx f i l).length = l.length := by
  intro l
  induction l with
  | nil => intro i; rfl
  | cons a l ih =>
    intro i
    simp only [map_idx, List.length_cons, ih (i + 1)]

lemma map_idx_map_fst {g : Nat → α → β} :
    ∀ (l : List α) (i : Nat), (map_idx (fun j c => (c, g j c)) i l).map Prod.fst = l := by
  intro l
  induction l with
  | nil => intro i; rfl
  | cons a l ih =>
    intro i
    simp only [map_idx, List.map_cons, ih (i + 1)]

lemma mem_fst_of_mem_map_idx {g : Nat → α → β} {l : List α} {i : Nat} {p : α × β}
    (h : p ∈ map_idx (fun j c => (c, g j c)) i l) : p.1 ∈ l := by
  have := List.mem_map_of_mem Prod.fst h
  rwa [map_idx_map_fst l i] at this

lemma flat_map_mem {f : α → List β} :
    ∀ {l : List α} {b : β}, b ∈ flat_map f l → ∃ a ∈ l, b ∈ f a := by
  intro l
  induction l with
  | nil => intro b h; simp [flat_map] at h
  | cons a l ih =>
    intro b h
    simp only [flat_map] at h
    rcases List.mem_append.1 h with h1 | h1
    · exact ⟨a, List.mem_cons_self a l, h1⟩
    · obtain ⟨x, hx, hb⟩ := ih h1
      exact ⟨x, List.mem_cons_of_mem a hx, hb⟩

lemma chunk_meta_id {base : MetaMap} {strat : Strategy} {i : Nat} {c : List Char} :
    chunk_meta base strat i c "chunk_id" = some (MVal.nat i) := rfl

lemma chunk_meta_index {base : MetaMap} {strat : Strategy} {i : Nat} {c : List Char} :
    chunk_meta base strat i c "chunk_index" = some (MVal.nat i) := rfl

lemma chunk_meta_strategy {base : MetaMap} {strat : Strategy} {i : Nat} {c : List Char} :
    chunk_meta base strat i c "strategy" = some (MVal.strat strat) := rfl

lemma chunk_meta_size {base : MetaMap} {strat : Strategy} {i : Nat} {c : List Char} :
    chunk_meta base strat i c "chunk_size" = some (MVal.nat c.length) := rfl

lemma chunk_meta_other {base : MetaMap} {strat : Strategy} {i : Nat} {c : List Char}
    {k : String} (h1 : k ≠ "chunk_id") (h2 : k ≠ "chunk_index") (h3 : k ≠ "strategy")
    (h4 : k ≠ "chunk_size") : chunk_meta base strat i c k = base k := by
  simp only [chunk_meta]
  rw [if_neg h1, if_neg h2, if_neg h3, if_neg h4]

/-! ### chunk_text basic lemmas -/

lemma chunk_text_of_blank {strat : Strategy} {S O M : Nat} {text : List Char} {base : MetaMap}
    (h : pyStrip text = []) : chunk_text strat S O M text base = [] := by
  simp [chunk_text, h]

lemma chunk_text_of_not_blank {strat : Strategy} {S O M : Nat} {text : List Char}
    {base : MetaMap} (h : pyStrip text ≠ []) :
    chunk_text strat S O M text base =
      map_idx (fun i c => (c, chunk_meta base strat i c)) 0
        (strategy_chunks strat S O M (clean_text text)) := by
  simp [chunk_text, isEmpty_false_of_ne_nil h]

lemma strategy_chunks_mem_ne_nil {strat : Strategy} {S O M : Nat} {t c : List Char}
    (h : c ∈ strategy_chunks strat S O M t) : c ≠ [] := by
  cases strat with
  | fixed_size => exact fixed_mem_ne_nil h
  | sentence_based => exact chunk_by_sentences_mem_ne_nil h
  | paragraph_based => exact chunk_by_paragraphs_mem_ne_nil h
  | semantic => exact chunk_by_sentences_mem_ne_nil h

/-! ### Markdown lemmas -/

lemma md_meta_heading {base : MetaMap} {heading : List Char} :
    md_meta base heading "heading" = some (MVal.str heading) := rfl

lemma md_meta_format {base : MetaMap} {heading : List Char} :
    md_meta base heading "format" = some (MVal.str ("markdown".toList)) := rfl

lemma md_meta_other {base : MetaMap} {heading : List Char} {k : String}
    (h1 : k ≠ "heading") (h2 : k ≠ "format") : md_meta base heading k = base k := by
  simp only [md_meta]
  rw [if_neg h1, if_neg h2]

lemma chunk_markdown_mem {S O M : Nat} {t : List Char} {base : MetaMap}
    {p : List Char × MetaMap} (hSM : S ≤ M) (hp : p ∈ chunk_markdown S O M t base) :
    p.1.length ≤ M ∨ ∃ d, S < d.length ∧ p.1 ∈ sentence_list d := by
  simp only [chunk_markdown] at hp
  obtain ⟨sec, -, hmem⟩ := flat_map_mem hp
  by_cases hlen : S < sec.1.length
  · rw [if_pos hlen] at hmem
    have hfst : p.1 ∈ chunk_by_sentences S O M sec.1 := mem_fst_of_mem_map_idx hmem
    rcases chunk_by_sentences_cases hfst with h1 | h1
    · exact Or.inl (by omega)
    · exact Or.inr ⟨sec.1, hlen, h1⟩
  · rw [if_neg hlen] at hmem
    obtain rfl : p = sec := by simpa using hmem
    exact Or.inl (by omega)

/-! ### Claim theorems -/

/-- Claim C1, counterexample: on empty input, the markdown path of
`chunk_document` (is_markdown = true) does not return the empty sequence; it
returns exactly one chunk whose text is the empty string. -/
theorem c1_blank_input_counterexample :
    (chunk_document [] none noBase true).length = 1 ∧
      (chunk_document [] none noBase true).map Prod.fst = [[]] := by
  exact ⟨rfl, rfl⟩

/-- Claim C1, amended: for every strategy of `chunk_text`, empty or
whitespace-only input yields zero chunks; the markdown path instead returns
exactly one chunk whose text is empty. -/
theorem c1_blank_input (strat : Strategy) (S O M S2 O2 M2 : Nat) (text : List Char)
    (base base2 : MetaMap) (h : pyStrip text = []) :
    chunk_text strat S O M text base = [] ∧
      (chunk_markdown S2 O2 M2 text base2).map Prod.fst = [[]] := by
  constructor
  · exact chunk_text_of_blank h
  · have hws : ∀ c ∈ text, isSpaceChar c = true := pyStrip_eq_nil_iff.1 h
    have hlines : ∀ line ∈ split_nl text, heading_match line = none := by
      intro line hline
      apply heading_match_none_of_ws
      intro c hc
      rcases split_nl_go_chars text [] line hline c hc with h1 | h1
      · simp at h1
      · exact hws c h1
    have hsne : split_nl text ≠ [] := split_nl_go_ne_nil text []
    simp only [chunk_markdown]
    rw [md_scan_no_heading (split_nl text) [] _ hlines]
    simp only [List.nil_append]
    rw [if_neg (by rw [isEmpty_false_of_ne_nil hsne]; simp)]
    rw [join_nl_split_nl, h]
    simp [flat_map]

/-- Claim C1 witness. -/
theorem c1_blank_input_witness :
    chunk_text .sentence_based 500 50 1000 (" ".toList) noBase = [] ∧
      (chunk_markdown 800 100 1000 (" ".toList) noBase).map Prod.fst = [[]] :=
  c1_blank_input .sentence_based 500 50 1000 800 100 1000 (" ".toList) noBase noBase (by decide)

/-- Claim C2, counterexample: with configuration S = 5, O = 1, M = 8 the
paragraph strategy and the markdown splitter both return a chunk of length 12
after post-processing, exceeding the hard cap M = 8 (the chunk is a single
sentence longer than M, which the sentence re-split cannot shorten). -/
theorem c2_hard_cap_counterexample :
    (∃ x ∈ (chunk_text .paragraph_based 5 1 8 ("aaaaaaaaaa. b.".toList) noBase).map Prod.fst,
        8 < x.length) ∧
      (∃ x ∈ (chunk_markdown 5 1 8 ("aaaaaaaaaa. b.".toList) noBase).map Prod.fst,
        8 < x.length) := by
  constructor
  · exact ⟨"aaaaaaaaaa. ".toList, by decide, by decide⟩
  · exact ⟨"aaaaaaaaaa. ".toList, by decide, by decide⟩

/-- Claim C2, amended: for O < S ≤ M, after post-processing every chunk of the
paragraph strategy and the markdown splitter either has length at most M, or
is a single sentence (an element of the sentence list of an over-long chunk),
and only such single sentences can exceed the cap. -/
theorem c2_hard_cap (S O M : Nat) (text : List Char) (base : MetaMap)
    (hOS : O < S) (hSM : S ≤ M) :
    (∀ x ∈ (chunk_text .paragraph_based S O M text base).map Prod.fst,
        x.length ≤ M ∨ ∃ d, S < d.length ∧ x ∈ sentence_list d) ∧
      (∀ x ∈ (chunk_markdown S O M text base).map Prod.fst,
        x.length ≤ M ∨ ∃ d, S < d.length ∧ x ∈ sentence_list d) := by
  constructor
  · intro x hx
    by_cases hb : pyStrip text = []
    · rw [chunk_text_of_blank hb] at hx
      simp at hx
    · rw [chunk_text_of_not_blank hb, map_idx_map_fst] at hx
      rcases chunk_by_paragraphs_mem hOS hSM hx with h1 | ⟨d, hd1, hd2⟩
      · exact Or.inl h1
      · exact Or.inr ⟨d, by omega, hd2⟩
  · intro x hx
    obtain ⟨p, hp, rfl⟩ := List.mem_map.1 hx
    exact chunk_markdown_mem hSM hp

/-- Claim C2 witness. -/
theorem c2_hard_cap_witness :
    ("aaaaaaaaaa. ".toList).length ≤ 8 ∨
      ∃ d, 5 < d.length ∧ "aaaaaaaaaa. ".toList ∈ sentence_list d :=
  (c2_hard_cap 5 1 8 ("aaaaaaaaaa. b.".toList) noBase (by decide) (by decide)).1
    ("aaaaaaaaaa. ".toList) (by decide)

/-- Claim C3, counterexample: the input contains sentence-final punctuation,
yet the sentence strategy (S = 5, O = 1, M = 8) returns a chunk of length 12,
exceeding max_chunk_size = 8: the first sentence alone is longer than M and
the greedy packer never splits inside a sentence. -/
theorem c3_sentence_cap_counterexample :
    ('.' ∈ "aaaaaaaaaa. b.".toList) ∧
      ∃ x ∈ (chunk_text .sentence_based 5 1 8 ("aaaaaaaaaa. b.".toList) noBase).map Prod.fst,
        8 < x.length := by
  exact ⟨by decide, "aaaaaaaaaa. ".toList, by decide, by decide⟩

/-- Claim C3, amended: for O < S ≤ M, every chunk of the sentence strategy
either has length at most the target S, or is a single sentence of the cleaned
text; only single sentences longer than max_chunk_size can exceed that cap. -/
theorem c3_sentence_cap (S O M : Nat) (text : List Char) (base : MetaMap)
    (_hOS : O < S) (_hSM : S ≤ M) :
    ∀ x ∈ (chunk_text .sentence_based S O M text base).map Prod.fst,
      x.length ≤ S ∨ x ∈ sentence_list (clean_text text) := by
  intro x hx
  by_cases hb : pyStrip text = []
  · rw [chunk_text_of_blank hb] at hx
    simp at hx
  · rw [chunk_text_of_not_blank hb, map_idx_map_fst] at hx
    exact chunk_by_sentences_cases hx

/-- Claim C3 witness. -/
theorem c3_sentence_cap_witness :
    ("Hi. There.".toList).length ≤ 500 ∨
      "Hi. There.".toList ∈ sentence_list (clean_text ("Hi. There.".toList)) :=
  c3_sentence_cap 500 50 1000 ("Hi. There.".toList) noBase (by decide) (by decide)
    ("Hi. There.".toList) (by decide)

/-- Claim C4, counterexample: with S = 5, O = 3, M = 1000 (so 0 ≤ O < S and
M ≥ S) on "abcdefg", the fourth chunk "g" does not start with the last three
characters "efg" of the third chunk: the overlap property fails on clamped
tail chunks. -/
theorem c4_fixed_size_counterexample :
    chunk_fixed_size 5 3 1000 ("abcdefg".toList) =
        ["abcde".toList, "cdefg".toList, "efg".toList, "g".toList] ∧
      ¬ ("g".toList).take ((takeLast 3 ("efg".toList)).length) = takeLast 3 ("efg".toList) := by
  exact ⟨by decide, by decide⟩

/-- Claim C4, amended: for 0 ≤ O < S and S ≤ M, every fixed-size chunk has
length at most S; at least one chunk is returned on non-empty input; and for
i > 0 the i-th chunk starts with the last O characters of the (i-1)-th chunk
whenever the i-th chunk has at least O characters (trailing chunks shorter
than O, which occur when the text runs out, are exempt). -/
theorem c4_fixed_size (S O M : Nat) (t : List Char) (hOS : O < S) (hSM : S ≤ M) :
    (∀ c ∈ chunk_fixed_size S O M t, c.length ≤ S) ∧
      (t ≠ [] → chunk_fixed_size S O M t ≠ []) ∧
      (∀ (i : Nat) (c c' : List Char),
        (chunk_fixed_size S O M t)[i + 1]? = some c →
        (chunk_fixed_size S O M t)[i]? = some c' →
        O ≤ c.length → c.take O = takeLast O c') := by
  have hO : O < min S M := by omega
  have hmin : min S M = S := by omega
  refine ⟨?_, ?_, ?_⟩
  · intro c hc
    have := fixed_mem_length hc
    omega
  · intro ht
    exact chunk_fixed_size_ne_nil hO ht
  · intro i c c' h1 h0 hOc
    have e1 := fixed_go_getElem? (t := t) hO (i + 1) t.length 0 (by omega)
    have e0 := fixed_go_getElem? (t := t) hO i t.length 0 (by omega)
    rw [hmin] at e1 e0
    rw [show chunk_fixed_size S O M t = fixed_go S O M t t.length 0 from rfl] at h1 h0
    rw [e1] at h1
    rw [e0] at h0
    simp only [Nat.zero_add] at h1 h0
    by_cases hlt1 : (i + 1) * (S - O) < t.length
    · rw [if_pos hlt1] at h1
      have hlt0 : i * (S - O) < t.length := by
        have hmono : i * (S - O) ≤ (i + 1) * (S - O) := Nat.mul_le_mul_right _ (by omega)
        omega
      rw [if_pos hlt0] at h0
      obtain rfl := Option.some.inj h1
      obtain rfl := Option.some.inj h0
      have hsucc : (i + 1) * (S - O) = i * (S - O) + (S - O) := Nat.succ_mul i (S - O)
      have hclen : ((t.drop ((i + 1) * (S - O))).take S).length
          = min S (t.length - (i + 1) * (S - O)) := by
        simp [List.length_take, List.length_drop]
      have hOle : O ≤ t.length - (i + 1) * (S - O) := by
        rw [hclen] at hOc
        omega
      have hc'len : ((t.drop (i * (S - O))).take S).length = S := by
        simp only [List.length_take, List.length_drop]
        omega
      rw [takeLast, hc'len, List.drop_take, List.drop_drop]
      have harith1 : S - (S - O) = O := by omega
      rw [harith1, ← hsucc, List.take_take]
      congr 1
      omega
    · rw [if_neg hlt1] at h1
      exact absurd h1 (by simp)

/-- Claim C4 witness. -/
theorem c4_fixed_size_witness :
    ("defgh".toList).take 2 = takeLast 2 ("abcde".toList) :=
  (c4_fixed_size 5 2 9 ("abcdefgh".toList) (by decide) (by decide)).2.2 0
    ("defgh".toList) ("abcde".toList) (by decide) (by decide) (by decide)

/-- Claim C5, counterexample: on "# A\nfoo\n## B\nbar" the first markdown
chunk is tagged with the initial sentinel heading "Introduction", not "A":
a heading line seen while the buffer is empty never updates the current
heading. -/
theorem c5_markdown_heading_counterexample :
    ((chunk_markdown 800 100 1000 ("# A\nfoo\n## B\nbar".toList) noBase).headD
        ([], noBase)).2 "heading" ≠ some (MVal.str ("A".toList)) := by
  decide

/-- Claim C5, amended: on "# A\nfoo\n## B\nbar" (any base metadata) exactly
two chunks are returned, each section's text beginning at its own heading
line, but tagged "Introduction" and "B" respectively: the emitted section is
tagged with the heading active before the triggering heading line, and a
heading line arriving with an empty buffer does not update the current
heading. -/
theorem c5_markdown_heading (base : MetaMap) :
    (chunk_markdown 800 100 1000 ("# A\nfoo\n## B\nbar".toList) base).map
        (fun p => (p.1, p.2 "heading")) =
      [("# A\nfoo".toList, some (MVal.str ("Introduction".toList))),
        ("## B\nbar".toList, some (MVal.str ("B".toList)))] := by
  rfl

/-- Claim C6, counterexample: a chunk produced by the markdown path of
`chunk_document` carries neither "chunk_id" nor "chunk_index" in its
metadata. -/
theorem c6_reserved_metadata_counterexample :
    (chunk_document ("# A\nfoo".toList) none noBase true).length = 1 ∧
      ((chunk_document ("# A\nfoo".toList) none noBase true).headD ([], noBase)).2 "chunk_id"
          = none ∧
      ((chunk_document ("# A\nfoo".toList) none noBase true).headD ([], noBase)).2 "chunk_index"
          = none := by
  exact ⟨rfl, rfl, rfl⟩

/-- Claim C6, amended: for every `chunk_text` strategy, the i-th returned
chunk's metadata contains chunk_id = i, chunk_index = i (so indices are
exactly 0..n-1 in production order), the strategy tag, and chunk_size equal to
the chunk text's length; the markdown path does not attach these keys. -/
theorem c6_reserved_metadata (strat : Strategy) (S O M : Nat) (text : List Char)
    (base : MetaMap) (i : Nat) (p : List Char × MetaMap)
    (h : (chunk_text strat S O M text base)[i]? = some p) :
    p.2 "chunk_id" = some (MVal.nat i) ∧ p.2 "chunk_index" = some (MVal.nat i) ∧
      p.2 "strategy" = some (MVal.strat strat) ∧
      p.2 "chunk_size" = some (MVal.nat p.1.length) := by
  by_cases hb : pyStrip text = []
  · rw [chunk_text_of_blank hb] at h
    simp at h
  · rw [chunk_text_of_not_blank hb, map_idx_getElem?] at h
    cases hr : (strategy_chunks strat S O M (clean_text text))[i]? with
    | none =>
      rw [hr] at h
      simp at h
    | some c =>
      rw [hr] at h
      obtain rfl : p = (c, chunk_meta base strat (0 + i) c) := by
        simpa using h.symm
      simp only [Nat.zero_add]
      exact ⟨chunk_meta_id, chunk_meta_index, chunk_meta_strategy, chunk_meta_size⟩

/-- Claim C6 witness. -/
theorem c6_reserved_metadata_witness :
    ((chunk_text .fixed_size 3 1 5 ("abcde".toList) noBase).headD ([], noBase)).2 "chunk_id"
      = some (MVal.nat 0) :=
  (c6_reserved_metadata .fixed_size 3 1 5 ("abcde".toList) noBase 0
    ((chunk_text .fixed_size 3 1 5 ("abcde".toList) noBase).headD ([], noBase)) rfl).1

/-- Claim C7: under the precondition O < S ≤ M the fixed-size splitter's
while-loop terminates within text-length iterations (the cursor strictly
advances), and its result is the total function `chunk_fixed_size`. -/
theorem c7_fixed_size_terminates (S O M : Nat) (t : List Char) (hOS : O < S) (hSM : S ≤ M) :
    chunk_fixed_loop S O M t t.length 0 = some (chunk_fixed_size S O M t) := by
  have hO : O < min S M := by omega
  exact chunk_fixed_loop_eq hO t.length 0 (by omega)

/-- Claim C7 witness. -/
theorem c7_fixed_size_terminates_witness :
    chunk_fixed_loop 5 2 9 ("abcdefgh".toList) (("abcdefgh".toList).length) 0
      = some (chunk_fixed_size 5 2 9 ("abcdefgh".toList)) :=
  c7_fixed_size_terminates 5 2 9 ("abcdefgh".toList) (by decide) (by decide)

/-- Claim C8: for every caller-supplied base metadata and every `chunk_text`
strategy, non-reserved keys pass through to every chunk's metadata unchanged,
while the four reserved keys always carry the chunker's values, never a
caller-supplied value. -/
theorem c8_metadata_passthrough (strat : Strategy) (S O M : Nat) (text : List Char)
    (base : MetaMap) (i : Nat) (p : List Char × MetaMap)
    (h : (chunk_text strat S O M text base)[i]? = some p) :
    (∀ k : String, k ≠ "chunk_id" → k ≠ "chunk_index" → k ≠ "strategy" →
        k ≠ "chunk_size" → p.2 k = base k) ∧
      p.2 "chunk_id" = some (MVal.nat i) ∧ p.2 "chunk_index" = some (MVal.nat i) ∧
      p.2 "strategy" = some (MVal.strat strat) ∧
      p.2 "chunk_size" = some (MVal.nat p.1.length) := by
  by_cases hb : pyStrip text = []
  · rw [chunk_text_of_blank hb] at h
    simp at h
  · rw [chunk_text_of_not_blank hb, map_idx_getElem?] at h
    cases hr : (strategy_chunks strat S O M (clean_text text))[i]? with
    | none =>
      rw [hr] at h
      simp at h
    | some c =>
      rw [hr] at h
      obtain rfl : p = (c, chunk_meta base strat (0 + i) c) := by
        simpa using h.symm
      simp only [Nat.zero_add]
      exact ⟨fun k h1 h2 h3 h4 => chunk_meta_other h1 h2 h3 h4,
        chunk_meta_id, chunk_meta_index, chunk_meta_strategy, chunk_meta_size⟩

/-- Claim C8 witness: a base metadata supplying both "author" and a clashing
"chunk_id"; the former passes through, the latter is the chunker's value. -/
theorem c8_metadata_passthrough_witness :
    ((chunk_text .fixed_size 3 1 5 ("abcde".toList)
          (fun k => if k = "author" then some (MVal.nat 7)
            else if k = "chunk_id" then some (MVal.nat 999) else none)).headD
        ([], noBase)).2 "author" = some (MVal.nat 7) ∧
      ((chunk_text .fixed_size 3 1 5 ("abcde".toList)
          (fun k => if k = "author" then some (MVal.nat 7)
            else if k = "chunk_id" then some (MVal.nat 999) else none)).headD
        ([], noBase)).2 "chunk_id" = some (MVal.nat 0) := by
  refine ⟨?_, ?_⟩
  · exact ((c8_metadata_passthrough .fixed_size 3 1 5 ("abcde".toList) _ 0 _ rfl).1
      "author" (by decide) (by decide) (by decide) (by decide)).trans (by decide)
  · exact (c8_metadata_passthrough .fixed_size 3 1 5 ("abcde".toList) _ 0 _ rfl).2.1

/-- Claim C9: the semantic strategy is an alias of the sentence-based one:
both produce the same ordered text spans, and the chunk metadata agree on
every key except the "strategy" tag. -/
theorem c9_semantic_alias (S O M : Nat) (text : List Char) (base : MetaMap) :
    (chunk_text .semantic S O M text base).map Prod.fst =
        (chunk_text .sentence_based S O M text base).map Prod.fst ∧
      ∀ (j : Nat) (k : String), k ≠ "strategy" →
        ((chunk_text .semantic S O M text base)[j]?).map (fun p => p.2 k) =
          ((chunk_text .sentence_based S O M text base)[j]?).map (fun p => p.2 k) := by
  by_cases hb : pyStrip text = []
  · rw [chunk_text_of_blank hb, chunk_text_of_blank hb]
    exact ⟨rfl, fun j k hk => rfl⟩
  · rw [chunk_text_of_not_blank hb, chunk_text_of_not_blank hb]
    have hraw : strategy_chunks .semantic S O M (clean_text text) =
        strategy_chunks .sentence_based S O M (clean_text text) := rfl
    constructor
    · rw [map_idx_map_fst, map_idx_map_fst]
      exact hraw
    · intro j k hk
      rw [map_idx_getElem?, map_idx_getElem?, hraw]
      cases hj : (strategy_chunks .sentence_based S O M (clean_text text))[j]? with
      | none => rfl
      | some c =>
        have hmeta : chunk_meta base .semantic j c k
            = chunk_meta base .sentence_based j c k := by
          by_cases h1 : k = "chunk_id"
          · subst h1; rfl
          · by_cases h2 : k = "chunk_index"
            · subst h2; rfl
            · by_cases h4 : k = "chunk_size"
              · subst h4; rfl
              · rw [chunk_meta_other h1 h2 hk h4, chunk_meta_other h1 h2 hk h4]
        simp [hmeta]

/-- Claim C9 witness. -/
theorem c9_semantic_alias_witness :
    ((chunk_text .semantic 500 50 1000 ("Hi. There.".toList) noBase)[0]?).map
        (fun p => p.2 "chunk_id") =
      ((chunk_text .sentence_based 500 50 1000 ("Hi. There.".toList) noBase)[0]?).map
        (fun p => p.2 "chunk_id") :=
  (c9_semantic_alias 500 50 1000 ("Hi. There.".toList) noBase).2 0 "chunk_id" (by decide)

/-- Claim C10: for every configuration with O < S and every input, no strategy
of `chunk_text` returns a chunk with an empty text span: empty buffers and
blank paragraphs or sentences are filtered before emission, and each
fixed-size window starts strictly before the end of the text. -/
theorem c10_nonempty_chunks (strat : Strategy) (S O M : Nat) (text : List Char)
    (base : MetaMap) (_hO : O < S) :
    ∀ x ∈ (chunk_text strat S O M text base).map Prod.fst, x ≠ [] := by
  intro x hx
  by_cases hb : pyStrip text = []
  · rw [chunk_text_of_blank hb] at hx
    simp at hx
  · rw [chunk_text_of_not_blank hb, map_idx_map_fst] at hx
    exact strategy_chunks_mem_ne_nil hx

/-- Claim C10 witness. -/
theorem c10_nonempty_chunks_witness : "Hi. There.".toList ≠ [] :=
  c10_nonempty_chunks .sentence_based 500 50 1000 ("Hi. There.".toList) noBase (by decide)
    ("Hi. There.".toList) (by decide)

end Chunker
